import Mathlib

/-!
Verification development for the `radixheap` crate (`src/lib.rs`).

The Rust code is shallowly embedded: `u32` keys become `Nat` (all public
inputs satisfy `key < 2^32`, carried as hypotheses where it matters),
`Vec` becomes `List`, and code that can `panic!` / fail an `assert!` /
`unwrap` on `None` or `Err` returns `Except Panic _`.  The value type `V`
(Rust `V : Ord`, used only through equality here) is an arbitrary type
with decidable equality.
-/

namespace Radixheap

/-- Enumeration of the abort points of the Rust source: `unwrapNone` is the
`position(..).unwrap()` inside `Bucket::pop`, `assertTop` the
`assert!(top.is_none())` there, `unreachableCase` the `unreachable!()` in
`RadixHeap::pop`, `unwrapErr` the `self.push(k, v).unwrap()` during
redistribution, `assertCurrentEmpty` the `assert!(current.empty())`, and
`indexOutOfBounds` a slice index out of range. -/
inductive Panic where
  | unwrapNone : Panic
  | assertTop : Panic
  | unreachableCase : Panic
  | unwrapErr : Panic
  | assertCurrentEmpty : Panic
  | indexOutOfBounds : Panic
deriving DecidableEq

/-- The single recoverable error of `RadixHeap::push`: `Err("key too small")`. -/
inductive KeyError where
  | keyTooSmall : KeyError
deriving DecidableEq

/-- Fuel-bounded bit length (position of the highest set bit, 1-based).
`bitLenAux fuel n` is the bit length of `n` whenever `n < 2 ^ fuel`. -/
def bitLenAux : Nat → Nat → Nat
  | 0, _ => 0
  | fuel + 1, n => if n = 0 then 0 else bitLenAux fuel (n / 2) + 1

/-- Bit length of a natural number below `2 ^ 64` (covers every `u32`). -/
def bitLen (n : Nat) : Nat := bitLenAux 64 n

/-- `u32::leading_zeros` for values below `2 ^ 32`. -/
def leadingZeros32 (n : Nat) : Nat := 32 - bitLen n

/-- The bucket ("distance class") computation of `RadixHeap::push`:
`if key == self.toplast { 0 } else { 32 - (key ^ self.toplast).leading_zeros() }`. -/
def bucketFor (key toplast : Nat) : Nat :=
  if key = toplast then 0 else 32 - leadingZeros32 (key ^^^ toplast)

/-- `Bucket<V>` of the source: fixed `index`, cached minimum `top`,
insertion-ordered `items`. -/
structure Bucket (V : Type) where
  index : Nat
  top : Option (Nat × V)
  items : List (Nat × V)
deriving DecidableEq

/-- `Bucket::length`. -/
def Bucket.length {V : Type} (b : Bucket V) : Nat := b.items.length

/-- `Bucket::empty`. -/
def Bucket.empty {V : Type} (b : Bucket V) : Bool := b.items.isEmpty

/-- `Bucket::clear`. -/
def Bucket.clear {V : Type} (b : Bucket V) : Bucket V :=
  { b with items := [], top := none }

/-- `Bucket::push`: append the entry; replace `top` unconditionally in the
index-0 bucket, otherwise only when the new key is strictly smaller. -/
def Bucket.push {V : Type} (b : Bucket V) (key : Nat) (val : V) : Bucket V :=
  { b with
    items := b.items ++ [(key, val)],
    top :=
      if b.index = 0 then some (key, val)
      else
        match b.top with
        | some (k, _) => if key < k then some (key, val) else b.top
        | none => some (key, val) }

/-- `iter().min_by_key(|(k, _)| k)`: the first entry of minimal key
(Rust's `min_by_key` keeps the earlier element on ties). -/
def minByKey {V : Type} : List (Nat × V) → Option (Nat × V)
  | [] => none
  | e :: es => some (es.foldl (fun m t => if t.1 < m.1 then t else m) e)

/-- `iter().position(p)`: index of the first element satisfying `p`. -/
def position {α : Type} (p : α → Bool) : List α → Option Nat
  | [] => none
  | x :: xs => if p x then some 0 else (position p xs).map (· + 1)

/-- The matching predicate of `Bucket::pop`:
`t.0 == *k && (t.1).cmp(&v) == Ordering::Equal` against the saved `top`. -/
def matchesTop {V : Type} [DecidableEq V] (top : Option (Nat × V)) (e : Nat × V) : Bool :=
  match top with
  | some (k, v) => e.1 == k && decide (e.2 = v)
  | none => false

/-- `Bucket::pop`: save the current `top`, recompute `top` as the minimum
over the items as they are BEFORE any removal, then remove the first item
equal to the saved `top` (panicking if none matches); on an empty bucket
assert that the saved `top` was `None`. -/
def Bucket.pop {V : Type} [DecidableEq V] (b : Bucket V) :
    Except Panic (Option (Nat × V) × Bucket V) :=
  let top := b.top
  let newtop := minByKey b.items
  if newtop.isSome then
    match position (matchesTop top) b.items with
    | some i => .ok (top, { b with top := newtop, items := b.items.eraseIdx i })
    | none => .error .unwrapNone
  else
    if top.isSome then .error .assertTop
    else .ok (top, { b with top := newtop })

/-- `RadixHeap<V>`: 33 buckets, the last extracted key `toplast`,
and the running element count `length`. -/
structure RadixHeap (V : Type) where
  buckets : List (Bucket V)
  toplast : Nat
  length : Nat
deriving DecidableEq

/-- `RadixHeap::new`: buckets with indices 0..32, `toplast = u32::MIN`,
`length = 0` (the capacity hint only pre-sizes allocations). -/
def RadixHeap.new (V : Type) : RadixHeap V :=
  { buckets := (List.range 33).map fun i => { index := i, top := none, items := [] }
    toplast := 0
    length := 0 }

/-- `RadixHeap::push`: `Err("key too small")` when `key < toplast`; otherwise
insert into bucket `bucketFor key toplast` and increment `length`.  The outer
`Except Panic` is the (dead for `u32` keys) out-of-range slice access. -/
def RadixHeap.push {V : Type} [DecidableEq V] (h : RadixHeap V) (key : Nat) (val : V) :
    Except Panic (Except KeyError (RadixHeap V)) :=
  if key < h.toplast then .ok (.error .keyTooSmall)
  else
    let bucket := bucketFor key h.toplast
    match h.buckets[bucket]? with
    | some b =>
        .ok (.ok { h with
                   buckets := h.buckets.set bucket (b.push key val),
                   length := h.length + 1 })
    | none => .error .indexOutOfBounds

/-- The bucket scan of `RadixHeap::pop`/`peek`: position of the first
non-empty bucket. -/
def firstNonEmptyIdx {V : Type} : List (Bucket V) → Option Nat
  | [] => none
  | b :: bs => if b.items.isEmpty then (firstNonEmptyIdx bs).map (· + 1) else some 0

/-- The redistribution loop of `RadixHeap::pop`:
`for _ in 0..current.length() { let (k, v) = current.pop()?; self.push(k, v).unwrap() }`,
with `unreachable!()` when `current.pop()` yields `None`. -/
def redistribute {V : Type} [DecidableEq V] :
    Nat → Bucket V → RadixHeap V → Except Panic (Bucket V × RadixHeap V)
  | 0, cur, h => .ok (cur, h)
  | fuel + 1, cur, h =>
    match Bucket.pop cur with
    | .error e => .error e
    | .ok (none, _) => .error .unreachableCase
    | .ok (some (k, v), cur2) =>
      match RadixHeap.push h k v with
      | .error e => .error e
      | .ok (.error _) => .error .unwrapErr
      | .ok (.ok h2) => redistribute fuel cur2 h2

/-- The tail of `RadixHeap::pop` after the scan: clone bucket `index` into
`current`, replace it by a fresh empty bucket, redistribute every remaining
entry through `push`, assert the drained clone is empty, decrement `length`,
and return the saved `top`. -/
def restructure {V : Type} [DecidableEq V] (h : RadixHeap V) (top : Option (Nat × V))
    (index : Nat) : Except Panic (Option (Nat × V) × RadixHeap V) :=
  match h.buckets[index]? with
  | none => .error .indexOutOfBounds
  | some current =>
    match redistribute current.items.length current
        { h with buckets := h.buckets.set index { index := index, top := none, items := [] } } with
    | .error e => .error e
    | .ok (cur, h3) =>
      if cur.items.isEmpty then .ok (top, { h3 with length := h3.length - 1 })
      else .error .assertCurrentEmpty

/-- `RadixHeap::pop`: `None` on an empty heap; otherwise pop the first
non-empty bucket, and for a bucket of positive index advance `toplast`
to the extracted key and restructure. -/
def RadixHeap.pop {V : Type} [DecidableEq V] (h : RadixHeap V) :
    Except Panic (Option (Nat × V) × RadixHeap V) :=
  if h.length = 0 then .ok (none, h)
  else
    match firstNonEmptyIdx h.buckets with
    | none => restructure h none 0
    | some p =>
      match h.buckets[p]? with
      | none => .error .indexOutOfBounds
      | some b =>
        if b.index = 0 then
          match Bucket.pop b with
          | .error e => .error e
          | .ok (t, b2) =>
            .ok (t, { h with buckets := h.buckets.set p b2, length := h.length - 1 })
        else
          match Bucket.pop b with
          | .error e => .error e
          | .ok (t, b2) =>
            match t with
            | none => .ok (none, { h with buckets := h.buckets.set p b2 })
            | some (k, _) =>
              restructure { h with buckets := h.buckets.set p b2, toplast := k } t b.index

/-- `RadixHeap::peek`: `None` on an empty heap; otherwise the cached `top`
of the first non-empty bucket, mutating nothing. -/
def RadixHeap.peek {V : Type} (h : RadixHeap V) : Option (Nat × V) :=
  if h.length = 0 then none
  else
    match firstNonEmptyIdx h.buckets with
    | some p =>
      match h.buckets[p]? with
      | some b => b.top
      | none => none
    | none => none

/-- `RadixHeap::empty`. -/
def RadixHeap.empty {V : Type} (h : RadixHeap V) : Bool := h.length == 0

/-- `RadixHeap::clear`: clear every bucket and zero `length`; `toplast`
is left untouched. -/
def RadixHeap.clear {V : Type} (h : RadixHeap V) : RadixHeap V :=
  { h with buckets := h.buckets.map Bucket.clear, length := 0 }

/-- A call against the public surface of the heap. -/
inductive Op (V : Type) where
  | push : Nat → V → Op V
  | pop : Op V
  | peek : Op V
  | clear : Op V
deriving DecidableEq

/-- The observable outcome of one call: `pushErr` is the recoverable
`Err("key too small")` (state unchanged), the others carry the returned
values. -/
inductive Ev (V : Type) where
  | pushOk : Ev V
  | pushErr : Ev V
  | popRes : Option (Nat × V) → Ev V
  | peekRes : Option (Nat × V) → Ev V
  | clearDone : Ev V
deriving DecidableEq

/-- One public call: a `Panic` aborts the program, a failed `push` leaves
the state unchanged (the Rust `Err` path performs no write). -/
def step {V : Type} [DecidableEq V] (h : RadixHeap V) :
    Op V → Except Panic (RadixHeap V × Ev V)
  | .push k v =>
    match RadixHeap.push h k v with
    | .error e => .error e
    | .ok (.error _) => .ok (h, .pushErr)
    | .ok (.ok h2) => .ok (h2, .pushOk)
  | .pop =>
    match RadixHeap.pop h with
    | .error e => .error e
    | .ok (r, h2) => .ok (h2, .popRes r)
  | .peek => .ok (h, .peekRes (RadixHeap.peek h))
  | .clear => .ok (RadixHeap.clear h, .clearDone)

/-- Execute a sequence of public calls, collecting the outcomes. -/
def run {V : Type} [DecidableEq V] (h : RadixHeap V) :
    List (Op V) → Except Panic (RadixHeap V × List (Ev V))
  | [] => .ok (h, [])
  | op :: ops =>
    match step h op with
    | .error e => .error e
    | .ok (h2, ev) =>
      match run h2 ops with
      | .error e => .error e
      | .ok (h3, evs) => .ok (h3, ev :: evs)

/-- The entries returned by the successful extractions of a trace, in call
order. -/
def pops {V : Type} (evs : List (Ev V)) : List (Nat × V) :=
  evs.filterMap fun e =>
    match e with
    | .popRes r => r
    | _ => none

/-- Number of successful insertions in a trace. -/
def countPushOk {V : Type} (evs : List (Ev V)) : Nat :=
  (evs.filter fun e =>
    match e with
    | .pushOk => true
    | _ => false).length

/-- An operation is well formed when its key fits in a `u32` (enforced in
Rust by the type of `push`). -/
def opWF {V : Type} : Op V → Bool
  | .push k _ => decide (k < 2 ^ 32)
  | _ => true

/-- A heap state is reachable when some panic-free sequence of public calls
builds it from a fresh heap. -/
def Reachable {V : Type} [DecidableEq V] (h : RadixHeap V) : Prop :=
  ∃ ops evs, (∀ op ∈ ops, opWF op = true) ∧ run (RadixHeap.new V) ops = .ok (h, evs)

/-- A concrete reachable heap used to instantiate the reachable-state
theorems: the result of `push (3, 5); push (9, 7)` on a fresh heap. -/
def sampleHeap : RadixHeap Nat :=
  match run (RadixHeap.new Nat) [Op.push 3 5, Op.push 9 7] with
  | .ok (hq, _) => hq
  | .error _ => RadixHeap.new Nat

/-- The heap state produced by the concrete run used in the C5 witness. -/
def sampleHeap2 : RadixHeap Nat :=
  match run (RadixHeap.new Nat) [Op.push 4 0, Op.pop, Op.push 9 1, Op.pop] with
  | .ok (hq, _) => hq
  | .error _ => RadixHeap.new Nat

/-! ### Arithmetic facts about `bitLen` and the bucket map -/

theorem bitLenAux_le_iff (fuel : Nat) : ∀ n k : Nat, n < 2 ^ fuel →
    (bitLenAux fuel n ≤ k ↔ n < 2 ^ k) := by
  induction fuel with
  | zero =>
    intro n k h
    have hn : n = 0 := by
      have h1 : (2:Nat) ^ 0 = 1 := pow_zero 2
      omega
    subst hn
    simpa [bitLenAux] using Nat.pos_pow_of_pos k (by norm_num)
  | succ f ih =>
    intro n k h
    by_cases hn : n = 0
    · subst hn
      simpa [bitLenAux] using Nat.pos_pow_of_pos k (by norm_num)
    · have hdiv : n / 2 < 2 ^ f := by
        have h2 : (0:Nat) < 2 := by norm_num
        rw [Nat.div_lt_iff_lt_mul h2, ← pow_succ]
        exact h
      cases k with
      | zero =>
        simp only [bitLenAux, if_neg hn, pow_zero]
        omega
      | succ k2 =>
        simp only [bitLenAux, if_neg hn, Nat.succ_le_succ_iff]
        rw [ih (n / 2) k2 hdiv, Nat.div_lt_iff_lt_mul (by norm_num : (0:Nat) < 2),
          ← pow_succ]

theorem bitLen_le_iff {n k : Nat} (h : n < 2 ^ 32) : bitLen n ≤ k ↔ n < 2 ^ k :=
  bitLenAux_le_iff 64 n k (lt_trans h (by norm_num))

theorem lt_bitLen_iff {n k : Nat} (h : n < 2 ^ 32) : k < bitLen n ↔ 2 ^ k ≤ n := by
  rw [← Nat.not_le, bitLen_le_iff h, Nat.not_lt]

theorem xor_div_two_pow (x y m : Nat) : (x ^^^ y) / 2 ^ m = x / 2 ^ m ^^^ y / 2 ^ m := by
  induction m with
  | zero => simp
  | succ m ih =>
    have hstep : ∀ z : Nat, z / 2 ^ (m + 1) = z / 2 ^ m / 2 := by
      intro z
      rw [Nat.div_div_eq_div_mul, pow_succ]
    rw [hstep, hstep, hstep, ih, Nat.xor_div_two]

theorem xor_lt_iff_div_eq {x y m : Nat} : x ^^^ y < 2 ^ m ↔ x / 2 ^ m = y / 2 ^ m := by
  have h2 : (0:Nat) < 2 ^ m := Nat.pos_pow_of_pos m (by norm_num)
  constructor
  · intro h
    have h0 : (x ^^^ y) / 2 ^ m = 0 := Nat.div_eq_of_lt h
    rw [xor_div_two_pow] at h0
    exact Nat.xor_eq_zero.mp h0
  · intro h
    have h0 : (x ^^^ y) / 2 ^ m = 0 := by
      rw [xor_div_two_pow, h, Nat.xor_self]
    by_contra hlt
    push_neg at hlt
    have hge := Nat.div_le_div_right (c := 2 ^ m) hlt
    rw [Nat.div_self h2] at hge
    omega

theorem bucketFor_le_32 (key t : Nat) : bucketFor key t ≤ 32 := by
  unfold bucketFor leadingZeros32
  split <;> omega

theorem bucketFor_eq_bitLen {key t : Nat} (hk : key < 2 ^ 32) (ht : t < 2 ^ 32) :
    bucketFor key t = bitLen (key ^^^ t) := by
  unfold bucketFor leadingZeros32
  by_cases h : key = t
  · subst h
    simp [Nat.xor_self, bitLen, bitLenAux]
  · have hxor : key ^^^ t < 2 ^ 32 := Nat.xor_lt_two_pow hk ht
    have h1 : bitLen (key ^^^ t) ≤ 32 := (bitLen_le_iff hxor).mpr hxor
    have h0 : key ^^^ t ≠ 0 := fun hz => h (Nat.xor_eq_zero.mp hz)
    have h2 : 0 < bitLen (key ^^^ t) := by
      rw [lt_bitLen_iff hxor, pow_zero]
      omega
    simp only [if_neg h]
    omega

theorem bucketFor_eq_zero_iff {key t : Nat} (hk : key < 2 ^ 32) (ht : t < 2 ^ 32) :
    bucketFor key t = 0 ↔ key = t := by
  rw [bucketFor_eq_bitLen hk ht]
  constructor
  · intro h
    have h1 : key ^^^ t < 2 ^ 0 := by
      rw [← bitLen_le_iff (Nat.xor_lt_two_pow hk ht)]
      omega
    rw [pow_zero] at h1
    exact Nat.xor_eq_zero.mp (by omega)
  · intro h
    subst h
    simp [Nat.xor_self, bitLen, bitLenAux]

theorem key_lt_of_bitLen_lt {t k1 k2 : Nat} (ht : t < 2 ^ 32) (h1 : k1 < 2 ^ 32)
    (h2 : k2 < 2 ^ 32) (htk : t ≤ k2)
    (hlt : bitLen (k1 ^^^ t) < bitLen (k2 ^^^ t)) : k1 < k2 := by
  have hx1 : k1 ^^^ t < 2 ^ 32 := Nat.xor_lt_two_pow h1 ht
  have hx2 : k2 ^^^ t < 2 ^ 32 := Nat.xor_lt_two_pow h2 ht
  set s := bitLen (k2 ^^^ t) with hs
  set m := s - 1 with hm
  have ha1 : k1 ^^^ t < 2 ^ m := by
    rw [← bitLen_le_iff hx1]
    omega
  have hag1 : k1 / 2 ^ m = t / 2 ^ m := xor_lt_iff_div_eq.mp ha1
  have hne2 : ¬ k2 ^^^ t < 2 ^ m := by
    intro hcon
    have hc := (bitLen_le_iff hx2).mpr hcon
    omega
  have hag2 : k2 / 2 ^ m ≠ t / 2 ^ m := fun he => hne2 (xor_lt_iff_div_eq.mpr he)
  have hmono : t / 2 ^ m ≤ k2 / 2 ^ m := Nat.div_le_div_right htk
  by_contra hcon
  push_neg at hcon
  have hd := Nat.div_le_div_right (c := 2 ^ m) hcon
  omega

theorem bitLen_xor_lt {t k1 k2 : Nat} (ht : t < 2 ^ 32) (h1 : k1 < 2 ^ 32)
    (h2 : k2 < 2 ^ 32) (heq : bitLen (k1 ^^^ t) = bitLen (k2 ^^^ t))
    (hpos : 1 ≤ bitLen (k1 ^^^ t)) : bitLen (k1 ^^^ k2) < bitLen (k1 ^^^ t) := by
  have hx1 : k1 ^^^ t < 2 ^ 32 := Nat.xor_lt_two_pow h1 ht
  have hx2 : k2 ^^^ t < 2 ^ 32 := Nat.xor_lt_two_pow h2 ht
  have hx12 : k1 ^^^ k2 < 2 ^ 32 := Nat.xor_lt_two_pow h1 h2
  set s := bitLen (k1 ^^^ t) with hs
  set m := s - 1 with hm
  have hsm : s = m + 1 := by omega
  have hdd : ∀ z : Nat, z / 2 ^ s = z / 2 ^ m / 2 := by
    intro z
    rw [Nat.div_div_eq_div_mul, ← pow_succ, ← hsm]
  have hs1 : k1 / 2 ^ s = t / 2 ^ s :=
    xor_lt_iff_div_eq.mp ((bitLen_le_iff hx1).mp (le_of_eq hs.symm))
  have hs2 : k2 / 2 ^ s = t / 2 ^ s :=
    xor_lt_iff_div_eq.mp ((bitLen_le_iff hx2).mp (by omega))
  have hne1 : k1 / 2 ^ m ≠ t / 2 ^ m := by
    intro he
    have hc := (bitLen_le_iff hx1).mpr (xor_lt_iff_div_eq.mpr he)
    omega
  have hne2 : k2 / 2 ^ m ≠ t / 2 ^ m := by
    intro he
    have hc := (bitLen_le_iff hx2).mpr (xor_lt_iff_div_eq.mpr he)
    omega
  rw [hdd, hdd] at hs1 hs2
  have heq12 : k1 / 2 ^ m = k2 / 2 ^ m := by omega
  have hlt : k1 ^^^ k2 < 2 ^ m := xor_lt_iff_div_eq.mpr heq12
  have hfin := (bitLen_le_iff hx12).mpr hlt
  omega

theorem bitLen_xor_stable {t k ks : Nat} (ht : t < 2 ^ 32) (hk : k < 2 ^ 32)
    (hks : ks < 2 ^ 32) (hlt : bitLen (ks ^^^ t) < bitLen (k ^^^ t)) :
    bitLen (k ^^^ ks) = bitLen (k ^^^ t) := by
  have hx1 : k ^^^ t < 2 ^ 32 := Nat.xor_lt_two_pow hk ht
  have hx2 : ks ^^^ t < 2 ^ 32 := Nat.xor_lt_two_pow hks ht
  have hx12 : k ^^^ ks < 2 ^ 32 := Nat.xor_lt_two_pow hk hks
  set s := bitLen (k ^^^ t) with hs
  set m := s - 1 with hm
  have hsm : s = m + 1 := by omega
  have hs1 : k / 2 ^ s = t / 2 ^ s :=
    xor_lt_iff_div_eq.mp ((bitLen_le_iff hx1).mp (le_of_eq hs.symm))
  have hs2 : ks / 2 ^ s = t / 2 ^ s :=
    xor_lt_iff_div_eq.mp ((bitLen_le_iff hx2).mp (by omega))
  have hup : k ^^^ ks < 2 ^ s := xor_lt_iff_div_eq.mpr (by omega)
  have hub := (bitLen_le_iff hx12).mpr hup
  have hne1 : k / 2 ^ m ≠ t / 2 ^ m := by
    intro he
    have hc := (bitLen_le_iff hx1).mpr (xor_lt_iff_div_eq.mpr he)
    omega
  have hagks : ks / 2 ^ m = t / 2 ^ m :=
    xor_lt_iff_div_eq.mp ((bitLen_le_iff hx2).mp (by omega))
  have hnelow : k / 2 ^ m ≠ ks / 2 ^ m := by omega
  have hlow : ¬ k ^^^ ks < 2 ^ m := fun hc => hnelow (xor_lt_iff_div_eq.mp hc)
  have hlb : ¬ bitLen (k ^^^ ks) ≤ m := fun hc =>
    hlow ((bitLen_le_iff hx12).mp hc)
  omega

/-! ### Facts about the list helpers -/

theorem minByKey_eq_none_iff {V : Type} {l : List (Nat × V)} :
    minByKey l = none ↔ l = [] := by
  cases l <;> simp [minByKey]

theorem foldMin_spec {V : Type} :
    ∀ (ts : List (Nat × V)) (e : Nat × V),
      (ts.foldl (fun m t => if t.1 < m.1 then t else m) e = e
        ∨ ts.foldl (fun m t => if t.1 < m.1 then t else m) e ∈ ts)
      ∧ (ts.foldl (fun m t => if t.1 < m.1 then t else m) e).1 ≤ e.1
      ∧ ∀ x ∈ ts, (ts.foldl (fun m t => if t.1 < m.1 then t else m) e).1 ≤ x.1 := by
  intro ts
  induction ts with
  | nil => intro e; simp
  | cons t ts ih =>
    intro e
    simp only [List.foldl_cons]
    by_cases hc : t.1 < e.1
    · simp only [if_pos hc]
      obtain ⟨hmem, hle, hall⟩ := ih t
      refine ⟨?_, ?_, ?_⟩
      · cases hmem with
        | inl hr => right; rw [hr]; exact List.mem_cons_self t ts
        | inr hr => right; exact List.mem_cons_of_mem _ hr
      · omega
      · intro x hx
        rcases List.mem_cons.mp hx with hx | hx
        · subst hx; exact hle
        · exact hall x hx
    · simp only [if_neg hc]
      obtain ⟨hmem, hle, hall⟩ := ih e
      refine ⟨?_, ?_, ?_⟩
      · cases hmem with
        | inl hr => left; exact hr
        | inr hr => right; exact List.mem_cons_of_mem _ hr
      · exact hle
      · intro x hx
        rcases List.mem_cons.mp hx with hx | hx
        · subst hx; omega
        · exact hall x hx

theorem minByKey_spec {V : Type} {l : List (Nat × V)} {m : Nat × V}
    (h : minByKey l = some m) : m ∈ l ∧ ∀ e ∈ l, m.1 ≤ e.1 := by
  cases l with
  | nil => simp [minByKey] at h
  | cons x xs =>
    simp only [minByKey, Option.some.injEq] at h
    obtain ⟨hmem, hle, hall⟩ := foldMin_spec xs x
    subst h
    refine ⟨?_, ?_⟩
    · cases hmem with
      | inl hr => rw [hr]; exact List.mem_cons_self x xs
      | inr hr => exact List.mem_cons_of_mem _ hr
    · intro e he
      rcases List.mem_cons.mp he with he | he
      · subst he; exact hle
      · exact hall e he

theorem minByKey_append {V : Type} (l : List (Nat × V)) (e : Nat × V) :
    minByKey (l ++ [e]) =
      match minByKey l with
      | none => some e
      | some m => some (if e.1 < m.1 then e else m) := by
  cases l with
  | nil => rfl
  | cons x xs => simp [minByKey, List.foldl_append]

theorem position_spec {α : Type} (p : α → Bool) :
    ∀ (l : List α) (i : Nat), position p l = some i →
      ∃ (hi : i < l.length), p (l.get ⟨i, hi⟩) = true := by
  intro l
  induction l with
  | nil => intro i h; simp [position] at h
  | cons x xs ih =>
    intro i h
    simp only [position] at h
    by_cases hx : p x
    · rw [if_pos hx] at h
      have h0 : i = 0 := by
        cases h
        rfl
      subst h0
      exact ⟨Nat.succ_pos _, hx⟩
    · rw [if_neg hx] at h
      cases hpos : position p xs with
      | none => rw [hpos] at h; simp at h
      | some j =>
        rw [hpos] at h
        simp at h
        obtain ⟨hj, hpj⟩ := ih j hpos
        subst h
        exact ⟨Nat.succ_lt_succ hj, hpj⟩

theorem firstNonEmptyIdx_none {V : Type} :
    ∀ l : List (Bucket V), firstNonEmptyIdx l = none → ∀ b ∈ l, b.items = [] := by
  intro l
  induction l with
  | nil => intro _ b hb; simp at hb
  | cons x xs ih =>
    intro h b hb
    simp only [firstNonEmptyIdx] at h
    by_cases hx : x.items.isEmpty
    · rw [if_pos hx] at h
      rcases List.mem_cons.mp hb with hb | hb
      · subst hb
        exact List.isEmpty_iff.mp hx
      · cases hpos : firstNonEmptyIdx xs with
        | none => exact ih hpos b hb
        | some j => rw [hpos] at h; simp at h
    · rw [if_neg hx] at h
      simp at h

theorem firstNonEmptyIdx_spec {V : Type} :
    ∀ (l : List (Bucket V)) (p : Nat), firstNonEmptyIdx l = some p →
      ∃ (hp : p < l.length), (l.get ⟨p, hp⟩).items ≠ []
        ∧ ∀ j (hj : j < l.length), j < p → (l.get ⟨j, hj⟩).items = [] := by
  intro l
  induction l with
  | nil => intro p h; simp [firstNonEmptyIdx] at h
  | cons x xs ih =>
    intro p h
    simp only [firstNonEmptyIdx] at h
    by_cases hx : x.items.isEmpty
    · rw [if_pos hx] at h
      cases hpos : firstNonEmptyIdx xs with
      | none => rw [hpos] at h; simp at h
      | some j =>
        rw [hpos] at h
        simp at h
        subst h
        obtain ⟨hj, hne, hbefore⟩ := ih j hpos
        refine ⟨Nat.succ_lt_succ hj, hne, ?_⟩
        intro i hi hilt
        cases i with
        | zero => exact List.isEmpty_iff.mp hx
        | succ i2 =>
          exact hbefore i2 (Nat.lt_of_succ_lt_succ hi) (Nat.lt_of_succ_lt_succ hilt)
    · rw [if_neg hx] at h
      have h0 : p = 0 := by
        cases h
        rfl
      subst h0
      refine ⟨Nat.succ_pos _, ?_, ?_⟩
      · intro hc
        rw [show (x :: xs).get ⟨0, Nat.succ_pos _⟩ = x from rfl] at hc
        exact hx (List.isEmpty_iff.mpr hc)
      · intro j hj hjlt
        omega

/-! ### Facts about the bucket operations -/

theorem matchesTop_eq {V : Type} [DecidableEq V] {top : Option (Nat × V)} {x : Nat × V}
    (h : matchesTop top x = true) : top = some x := by
  cases top with
  | none => simp [matchesTop] at h
  | some m =>
    obtain ⟨k, v⟩ := m
    simp only [matchesTop, Bool.and_eq_true, beq_iff_eq, decide_eq_true_eq] at h
    obtain ⟨h1, h2⟩ := h
    rw [← h1, ← h2]

theorem Bucket.pop_inversion {V : Type} [DecidableEq V] {b b2 : Bucket V}
    {r : Option (Nat × V)} (h : Bucket.pop b = .ok (r, b2)) :
    r = b.top ∧ b2.index = b.index ∧ b2.top = minByKey b.items
      ∧ b2.items ⊆ b.items
      ∧ (∀ e, r = some e → e ∈ b.items)
      ∧ (b.items = [] → b2.items = []) := by
  unfold Bucket.pop at h
  cases hmb : minByKey b.items with
  | none =>
    rw [hmb] at h
    simp only [Option.isSome_none, Bool.false_eq_true, if_false] at h
    have hnil : b.items = [] := minByKey_eq_none_iff.mp hmb
    by_cases ht : b.top.isSome
    · rw [if_pos ht] at h
      cases h
    · rw [if_neg ht] at h
      cases h
      refine ⟨rfl, rfl, rfl, ?_, ?_, fun _ => hnil⟩
      · intro e he; exact he
      · intro e he
        rw [he] at ht
        simp at ht
  | some m =>
    rw [hmb] at h
    simp only [Option.isSome_some, if_true] at h
    cases hpos : position (matchesTop b.top) b.items with
    | none => rw [hpos] at h; cases h
    | some i =>
      rw [hpos] at h
      cases h
      obtain ⟨hi, hmatch⟩ := position_spec _ b.items i hpos
      have htop : b.top = some (b.items.get ⟨i, hi⟩) := matchesTop_eq hmatch
      refine ⟨rfl, rfl, rfl, List.eraseIdx_subset b.items i, ?_, ?_⟩
      · intro e he
        rw [htop] at he
        cases he
        exact List.get_mem b.items i hi
      · intro hnil
        rw [hnil]
        rfl

theorem Bucket.pop_some_mem {V : Type} [DecidableEq V] {b b2 : Bucket V}
    {e : Nat × V} (h : Bucket.pop b = .ok (some e, b2)) : e ∈ b.items :=
  (Bucket.pop_inversion h).2.2.2.2.1 e rfl

theorem Bucket.push_top_min {V : Type} {b : Bucket V} {k : Nat} {v : V}
    (hidx : b.index ≠ 0) (htop : b.top = minByKey b.items) :
    (b.push k v).top = minByKey (b.items ++ [(k, v)]) := by
  unfold Bucket.push
  simp only [if_neg hidx]
  rw [minByKey_append]
  cases hmb : minByKey b.items with
  | none => rw [htop, hmb]
  | some m =>
    rw [htop, hmb]
    by_cases hc : k < m.1
    · simp [hc]
    · simp [hc]

/-! ### The heap invariant and its preservation -/

/-- Per-bucket invariant relative to the current `toplast`: every entry has
a `u32` key at least `toplast` placed by the bucket map at this bucket's
index; a positive-index bucket caches exactly `minByKey items`; the index-0
bucket, while non-empty, caches an entry with key `toplast`. -/
def BucketInv {V : Type} (t : Nat) (b : Bucket V) : Prop :=
  (∀ e ∈ b.items, e.1 < 2 ^ 32 ∧ t ≤ e.1 ∧ bucketFor e.1 t = b.index)
  ∧ (b.index ≠ 0 → b.top = minByKey b.items)
  ∧ (b.index = 0 → b.items ≠ [] → ∃ v, b.top = some (t, v))

/-- Heap invariant: 33 buckets, `toplast` a `u32`, bucket `i` carries
index `i` and satisfies `BucketInv`. -/
def Inv {V : Type} (h : RadixHeap V) : Prop :=
  h.buckets.length = 33
  ∧ h.toplast < 2 ^ 32
  ∧ ∀ i (hi : i < h.buckets.length),
      (h.buckets.get ⟨i, hi⟩).index = i ∧ BucketInv h.toplast (h.buckets.get ⟨i, hi⟩)

theorem bucketInv_fresh {V : Type} (t i : Nat) :
    BucketInv t ({ index := i, top := none, items := [] } : Bucket V) := by
  refine ⟨?_, fun _ => rfl, ?_⟩
  · intro e he
    simp at he
  · intro _ hne
    exact absurd rfl hne

theorem inv_buckets_mem {V : Type} {h : RadixHeap V} (hinv : Inv h) {b : Bucket V}
    (hb : b ∈ h.buckets) : BucketInv h.toplast b := by
  obtain ⟨n, hn, hget⟩ := List.mem_iff_getElem.mp hb
  have hx := (hinv.2.2 n hn).2
  rw [List.get_eq_getElem, hget] at hx
  exact hx

theorem inv_new (V : Type) : Inv (RadixHeap.new V) := by
  refine ⟨by simp [RadixHeap.new], by simp [RadixHeap.new], ?_⟩
  intro i hi
  have hlen : i < 33 := by simpa [RadixHeap.new] using hi
  have hget : (RadixHeap.new V).buckets.get ⟨i, hi⟩
      = { index := i, top := none, items := [] } := by
    simp [RadixHeap.new]
  rw [hget]
  exact ⟨rfl, bucketInv_fresh 0 i⟩

theorem push_inv {V : Type} [DecidableEq V] {h h2 : RadixHeap V} {k : Nat} {v : V}
    (hinv : Inv h) (hk : k < 2 ^ 32)
    (hp : RadixHeap.push h k v = .ok (.ok h2)) :
    Inv h2 ∧ h2.toplast = h.toplast ∧ h.toplast ≤ k := by
  obtain ⟨hlen, htl, hbuck⟩ := hinv
  unfold RadixHeap.push at hp
  split at hp
  next hlt => simp at hp
  next hlt =>
    have hle : h.toplast ≤ k := Nat.le_of_not_lt hlt
    have hblt : bucketFor k h.toplast < h.buckets.length := by
      have := bucketFor_le_32 k h.toplast
      omega
    simp only [List.getElem?_eq_getElem hblt, Except.ok.injEq] at hp
    subst hp
    set bkt := bucketFor k h.toplast with hbkt
    set b := h.buckets[bkt] with hbdef
    have hbidx : b.index = bkt := by
      have := (hbuck bkt hblt).1
      rwa [List.get_eq_getElem] at this
    have hbinv : BucketInv h.toplast b := by
      have := (hbuck bkt hblt).2
      rwa [List.get_eq_getElem] at this
    refine ⟨⟨by simp [hlen], htl, ?_⟩, rfl, hle⟩
    intro i hi
    have hi2 : i < h.buckets.length := by simpa using hi
    by_cases hip : i = bkt
    · subst hip
      have hget : (h.buckets.set bkt (b.push k v)).get ⟨bkt, hi⟩ = b.push k v := by
        simp
      rw [hget]
      have hpidx : (b.push k v).index = b.index := rfl
      refine ⟨by rw [hpidx, hbidx], ?_, ?_, ?_⟩
      · intro e he
        have hitems : (b.push k v).items = b.items ++ [(k, v)] := rfl
        rw [hitems] at he
        rcases List.mem_append.mp he with he | he
        · obtain ⟨h1, h2, h3⟩ := hbinv.1 e he
          exact ⟨h1, h2, by rw [h3, hbidx, hpidx, hbidx]⟩
        · have he2 : e = (k, v) := by simpa using he
          subst he2
          exact ⟨hk, hle, by rw [hpidx, hbidx]⟩
      · intro hne
        have hne2 : b.index ≠ 0 := fun hc => hne (hpidx.trans hc)
        exact Bucket.push_top_min (k := k) (v := v) hne2 (hbinv.2.1 hne2)
      · intro h0 _
        have hb0 : b.index = 0 := hpidx ▸ h0
        have hkt : k = h.toplast := by
          have hz : bucketFor k h.toplast = 0 := by omega
          exact (bucketFor_eq_zero_iff hk htl).mp hz
        refine ⟨v, ?_⟩
        show (b.push k v).top = some (h.toplast, v)
        unfold Bucket.push
        simp only [hb0, if_pos]
        rw [hkt]
    · have hget : (h.buckets.set bkt (b.push k v)).get ⟨i, hi⟩
          = h.buckets.get ⟨i, hi2⟩ := by
        simp only [List.get_eq_getElem]
        exact List.getElem_set_ne (fun hc => hip hc.symm) _
      rw [hget]
      exact hbuck i hi2

theorem clear_inv {V : Type} {h : RadixHeap V} (hinv : Inv h) :
    Inv (RadixHeap.clear h) := by
  obtain ⟨hlen, htl, hbuck⟩ := hinv
  refine ⟨by simp [RadixHeap.clear, hlen], htl, ?_⟩
  intro i hi
  have hi2 : i < h.buckets.length := by simpa [RadixHeap.clear] using hi
  have hget : (RadixHeap.clear h).buckets.get ⟨i, hi⟩
      = Bucket.clear (h.buckets.get ⟨i, hi2⟩) := by
    simp [RadixHeap.clear]
  rw [hget]
  refine ⟨(hbuck i hi2).1, ?_, fun _ => rfl, ?_⟩
  · intro e he
    simp [Bucket.clear] at he
  · intro _ hne
    exact absurd rfl hne

theorem getElem?_inv {α : Type} {l : List α} {i : Nat} {a : α} (h : l[i]? = some a) :
    ∃ (hi : i < l.length), l.get ⟨i, hi⟩ = a := by
  have hi : i < l.length := by
    by_contra hc
    rw [List.getElem?_eq_none (Nat.le_of_not_lt hc)] at h
    cases h
  rw [List.getElem?_eq_getElem hi] at h
  cases h
  exact ⟨hi, rfl⟩

theorem bucketsInv_set {V : Type} {t : Nat} {l : List (Bucket V)} {p : Nat}
    {b2 : Bucket V}
    (hall : ∀ i (hi : i < l.length),
      (l.get ⟨i, hi⟩).index = i ∧ BucketInv t (l.get ⟨i, hi⟩))
    (hidx2 : b2.index = p) (hbi2 : BucketInv t b2) :
    ∀ i (hi : i < (l.set p b2).length), ((l.set p b2).get ⟨i, hi⟩).index = i
      ∧ BucketInv t ((l.set p b2).get ⟨i, hi⟩) := by
  intro i hi
  have hi2 : i < l.length := by simpa using hi
  by_cases hip : i = p
  · subst hip
    have hget : (l.set i b2).get ⟨i, hi⟩ = b2 := by simp
    rw [hget]
    exact ⟨hidx2, hbi2⟩
  · have hget : (l.set p b2).get ⟨i, hi⟩ = l.get ⟨i, hi2⟩ := by
      simp only [List.get_eq_getElem]
      exact List.getElem_set_ne (fun hc => hip hc.symm) _
    rw [hget]
    exact hall i hi2

theorem redistribute_inv {V : Type} [DecidableEq V] :
    ∀ (fuel : Nat) (cur cur2 : Bucket V) (h h3 : RadixHeap V),
      Inv h → (∀ e ∈ cur.items, e.1 < 2 ^ 32 ∧ h.toplast ≤ e.1) →
      redistribute fuel cur h = .ok (cur2, h3) →
      Inv h3 ∧ h3.toplast = h.toplast := by
  intro fuel
  induction fuel with
  | zero =>
    intro cur cur2 h h3 hinv _ hr
    cases hr
    exact ⟨hinv, rfl⟩
  | succ f ih =>
    intro cur cur2 h h3 hinv hent hr
    simp only [redistribute] at hr
    split at hr
    next => cases hr
    next => cases hr
    next k v curx heq =>
      split at hr
      next => cases hr
      next => cases hr
      next hx heq2 =>
        have hkv : (k, v) ∈ cur.items := Bucket.pop_some_mem heq
        obtain ⟨hk32, hkt⟩ := hent (k, v) hkv
        obtain ⟨hinvx, htlx, _⟩ := push_inv hinv hk32 heq2
        have hsub := (Bucket.pop_inversion heq).2.2.2.1
        have hentx : ∀ e ∈ curx.items, e.1 < 2 ^ 32 ∧ hx.toplast ≤ e.1 := by
          intro e he
          obtain ⟨h1, h2⟩ := hent e (hsub he)
          exact ⟨h1, by rw [htlx]; exact h2⟩
        obtain ⟨hinv3, htl3⟩ := ih curx cur2 hx h3 hinvx hentx hr
        exact ⟨hinv3, by rw [htl3, htlx]⟩

theorem pop_inv {V : Type} [DecidableEq V] {h h2 : RadixHeap V} {r : Option (Nat × V)}
    (hinv : Inv h) (hp : RadixHeap.pop h = .ok (r, h2)) :
    Inv h2 ∧ h.toplast ≤ h2.toplast ∧ (∀ e, r = some e → e.1 = h2.toplast) := by
  obtain ⟨hlen, htl, hbuck⟩ := hinv
  unfold RadixHeap.pop at hp
  split at hp
  next hl0 =>
    cases hp
    exact ⟨⟨hlen, htl, hbuck⟩, le_refl _, fun e he => nomatch he⟩
  next hl0 =>
    split at hp
    next hscan =>
      have hall := firstNonEmptyIdx_none h.buckets hscan
      unfold restructure at hp
      split at hp
      next heq0 =>
        rw [List.getElem?_eq_none_iff] at heq0
        omega
      next current heq0 =>
        obtain ⟨h0lt, hcget⟩ := getElem?_inv heq0
        have hcuritems : current.items = [] := by
          have hmem : current ∈ h.buckets := hcget ▸ List.get_mem h.buckets 0 h0lt
          exact hall current hmem
        rw [hcuritems] at hp
        simp only [List.length_nil, redistribute] at hp
        split at hp
        next =>
          cases hp
          refine ⟨⟨by simp [hlen], htl, ?_⟩, le_refl _, fun e he => nomatch he⟩
          exact bucketsInv_set hbuck rfl (bucketInv_fresh h.toplast 0)
        next hfalse =>
          rw [hcuritems] at hfalse
          exact absurd rfl hfalse
    next p hscan =>
      obtain ⟨hplt, hpne, hbefore⟩ := firstNonEmptyIdx_spec h.buckets p hscan
      split at hp
      next heqb =>
        rw [List.getElem?_eq_none_iff] at heqb
        omega
      next b heqb =>
        obtain ⟨hplt2, hbget⟩ := getElem?_inv heqb
        have hbidx : b.index = p := by
          rw [← hbget]
          exact (hbuck p hplt2).1
        have hbinv : BucketInv h.toplast b := by
          rw [← hbget]
          exact (hbuck p hplt2).2
        have hitems : b.items ≠ [] := by
          rw [← hbget]
          exact hpne
        split at hp
        next hb0 =>
          split at hp
          next => cases hp
          next t b2 heqpop =>
            cases hp
            obtain ⟨htopr, hb2idx, hb2top, hb2sub, hsomem, hnil⟩ :=
              Bucket.pop_inversion heqpop
            obtain ⟨v0, htop0⟩ := hbinv.2.2 hb0 hitems
            refine ⟨⟨by simp [hlen], htl, ?_⟩, le_refl _, ?_⟩
            · apply bucketsInv_set hbuck (hb2idx.trans hbidx)
              refine ⟨?_, ?_, ?_⟩
              · intro e he
                obtain ⟨h1, h2x, h3⟩ := hbinv.1 e (hb2sub he)
                exact ⟨h1, h2x, h3.trans hb2idx.symm⟩
              · intro hne
                exact absurd (hb2idx.trans hb0) hne
              · intro _ hne2
                cases hm : minByKey b.items with
                | none => exact absurd (minByKey_eq_none_iff.mp hm) hitems
                | some m =>
                  obtain ⟨hmmem, _⟩ := minByKey_spec hm
                  obtain ⟨hm32, hmge, hmbf⟩ := hbinv.1 m hmmem
                  have hmt : m.1 = h.toplast := by
                    have hz : bucketFor m.1 h.toplast = 0 := by omega
                    exact (bucketFor_eq_zero_iff hm32 htl).mp hz
                  refine ⟨m.2, ?_⟩
                  rw [hb2top, hm, ← hmt]
            · intro e he
              rw [htopr, htop0] at he
              injection he with he2
              subst he2
              rfl
        next hbne0 =>
          have hpne0 : p ≠ 0 := fun hc => hbne0 (hbidx.trans hc)
          split at hp
          next => cases hp
          next t b2 heqpop =>
            obtain ⟨htopr, hb2idx, hb2top, hb2sub, hsomem, hnil⟩ :=
              Bucket.pop_inversion heqpop
            have htopmin : b.top = minByKey b.items := hbinv.2.1 hbne0
            split at hp
            next =>
              have hmn : minByKey b.items = none := htopmin.symm.trans htopr.symm
              exact absurd (minByKey_eq_none_iff.mp hmn) hitems
            next k v =>
              have hmineq : minByKey b.items = some (k, v) :=
                htopmin.symm.trans htopr.symm
              obtain ⟨hkvmem, hkvmin⟩ := minByKey_spec hmineq
              obtain ⟨hk32, hk_ge_t, hkbf⟩ := hbinv.1 (k, v) hkvmem
              dsimp only at hk32 hk_ge_t hkbf hkvmin
              rw [hbidx] at hp
              unfold restructure at hp
              split at hp
              next heqc =>
                rw [List.getElem?_eq_none_iff] at heqc
                simp at heqc
                omega
              next current heqc =>
                obtain ⟨hclt, hcget⟩ := getElem?_inv heqc
                have hcur_eq : current = b2 := by
                  rw [← hcget]
                  simp
                rw [hcur_eq] at hp
                have hss : (h.buckets.set p b2).set p
                      ({ index := p, top := none, items := [] } : Bucket V)
                    = h.buckets.set p { index := p, top := none, items := [] } :=
                  List.set_set _ _ _ _
                rw [hss] at hp
                have hinvmid : Inv (RadixHeap.mk
                    (h.buckets.set p { index := p, top := none, items := [] })
                    k h.length) := by
                  refine ⟨by simp [hlen], hk32, ?_⟩
                  intro i hi
                  have hi2 : i < h.buckets.length := by simpa using hi
                  by_cases hip : i = p
                  · subst hip
                    have hget : (h.buckets.set i
                          ({ index := i, top := none, items := [] } : Bucket V)).get
                          ⟨i, hi⟩ = { index := i, top := none, items := [] } := by
                      simp
                    rw [hget]
                    exact ⟨rfl, bucketInv_fresh k i⟩
                  · have hget : (h.buckets.set p
                          ({ index := p, top := none, items := [] } : Bucket V)).get
                          ⟨i, hi⟩ = h.buckets.get ⟨i, hi2⟩ := by
                      simp only [List.get_eq_getElem]
                      exact List.getElem_set_ne (fun hc => hip hc.symm) _
                    rw [hget]
                    obtain ⟨hidx_i, hbinv_i⟩ := hbuck i hi2
                    refine ⟨hidx_i, ?_, hbinv_i.2.1, ?_⟩
                    · intro e he
                      by_cases hilt : i < p
                      · have hnil_i : (h.buckets.get ⟨i, hi2⟩).items = [] :=
                          hbefore i hi2 hilt
                        rw [hnil_i] at he
                        cases he
                      · have hpi : p < i := by omega
                        obtain ⟨he32, het, hebf⟩ := hbinv_i.1 e he
                        have hbfk : bucketFor k h.toplast = p := hkbf.trans hbidx
                        have hbfe : bucketFor e.1 h.toplast = i := hebf.trans hidx_i
                        rw [bucketFor_eq_bitLen hk32 htl] at hbfk
                        rw [bucketFor_eq_bitLen he32 htl] at hbfe
                        have hltbl : bitLen (k ^^^ h.toplast)
                            < bitLen (e.1 ^^^ h.toplast) := by omega
                        have hke : k < e.1 :=
                          key_lt_of_bitLen_lt htl hk32 he32 het hltbl
                        refine ⟨he32, le_of_lt hke, ?_⟩
                        rw [bucketFor_eq_bitLen he32 hk32,
                          bitLen_xor_stable htl he32 hk32 hltbl, hbfe, hidx_i]
                    · intro hz hne
                      have hiz : i = 0 := by rw [← hidx_i, hz]
                      subst hiz
                      have hnil_i : (h.buckets.get ⟨0, hi2⟩).items = [] :=
                        hbefore 0 hi2 (by omega)
                      exact absurd hnil_i hne
                have hentb2 : ∀ e ∈ b2.items, e.1 < 2 ^ 32 ∧ k ≤ e.1 := by
                  intro e he
                  have hee := hb2sub he
                  obtain ⟨h1, _, _⟩ := hbinv.1 e hee
                  exact ⟨h1, hkvmin e hee⟩
                split at hp
                next => cases hp
                next curF h3 heqred =>
                  obtain ⟨hinv3, htl3⟩ :=
                    redistribute_inv _ b2 curF _ h3 hinvmid hentb2 heqred
                  split at hp
                  next hemp =>
                    cases hp
                    have hh3t : h3.toplast = k := htl3
                    refine ⟨?_, ?_, ?_⟩
                    · exact ⟨hinv3.1, hinv3.2.1, hinv3.2.2⟩
                    · show h.toplast ≤ h3.toplast
                      rw [hh3t]
                      exact hk_ge_t
                    · intro e he
                      injection he with he2
                      subst he2
                      show k = h3.toplast
                      exact hh3t.symm
                  next => cases hp

theorem step_inv {V : Type} [DecidableEq V] {h h2 : RadixHeap V} {op : Op V}
    {ev : Ev V} (hinv : Inv h) (hwf : opWF op = true)
    (hs : step h op = .ok (h2, ev)) :
    Inv h2 ∧ h.toplast ≤ h2.toplast
      ∧ (∀ e, ev = .popRes (some e) → e.1 = h2.toplast) := by
  cases op with
  | push k v =>
    simp only [step] at hs
    split at hs
    next => cases hs
    next heq =>
      cases hs
      exact ⟨hinv, le_refl _, fun e he => nomatch he⟩
    next hx heq =>
      cases hs
      have hk : k < 2 ^ 32 := by simpa [opWF] using hwf
      obtain ⟨hi, ht, _⟩ := push_inv hinv hk heq
      exact ⟨hi, le_of_eq ht.symm, fun e he => nomatch he⟩
  | pop =>
    simp only [step] at hs
    split at hs
    next => cases hs
    next rr h3 heq =>
      cases hs
      obtain ⟨hi, ht, hkey⟩ := pop_inv hinv heq
      refine ⟨hi, ht, ?_⟩
      intro e he
      injection he with he2
      exact hkey e he2
  | peek =>
    simp only [step] at hs
    cases hs
    exact ⟨hinv, le_refl _, fun e he => nomatch he⟩
  | clear =>
    simp only [step] at hs
    cases hs
    exact ⟨clear_inv hinv, le_refl _, fun e he => nomatch he⟩

theorem run_inv {V : Type} [DecidableEq V] :
    ∀ (ops : List (Op V)) (h hF : RadixHeap V) (evs : List (Ev V)),
      Inv h → (∀ op ∈ ops, opWF op = true) →
      run h ops = .ok (hF, evs) →
      Inv hF ∧ h.toplast ≤ hF.toplast
        ∧ List.Chain' (fun a b : Nat × V => a.1 ≤ b.1) (pops evs)
        ∧ ∀ e ∈ pops evs, h.toplast ≤ e.1 ∧ e.1 ≤ hF.toplast := by
  intro ops
  induction ops with
  | nil =>
    intro h hF evs hinv _ hr
    cases hr
    exact ⟨hinv, le_refl _, by simp [pops], by simp [pops]⟩
  | cons op ops ih =>
    intro h hF evs hinv hwf hr
    simp only [run] at hr
    split at hr
    next => cases hr
    next h1 ev heq =>
      split at hr
      next => cases hr
      next hF2 evs2 heq2 =>
        cases hr
        obtain ⟨hinv1, ht1, hkey1⟩ :=
          step_inv hinv (hwf op (List.mem_cons_self op ops)) heq
        obtain ⟨hinvF, htF, hchain, hbounds⟩ :=
          ih h1 hF evs2 hinv1 (fun o ho => hwf o (List.mem_cons_of_mem _ ho)) heq2
        have htrans := le_trans ht1 htF
        have hdrop : ∀ (hpops : pops (ev :: evs2) = pops evs2),
            Inv hF ∧ h.toplast ≤ hF.toplast
              ∧ List.Chain' (fun a b : Nat × V => a.1 ≤ b.1) (pops (ev :: evs2))
              ∧ ∀ e ∈ pops (ev :: evs2), h.toplast ≤ e.1 ∧ e.1 ≤ hF.toplast := by
          intro hpops
          rw [hpops]
          refine ⟨hinvF, htrans, hchain, ?_⟩
          intro e he
          obtain ⟨h1e, h2e⟩ := hbounds e he
          exact ⟨le_trans ht1 h1e, h2e⟩
        cases ev with
        | pushOk => exact hdrop (by simp [pops])
        | pushErr => exact hdrop (by simp [pops])
        | clearDone => exact hdrop (by simp [pops])
        | peekRes rr => exact hdrop (by simp [pops])
        | popRes rr =>
          cases rr with
          | none => exact hdrop (by simp [pops])
          | some ee =>
            have hee : ee.1 = h1.toplast := hkey1 ee rfl
            have hpops : pops (Ev.popRes (some ee) :: evs2) = ee :: pops evs2 := by
              simp [pops]
            rw [hpops]
            refine ⟨hinvF, htrans, ?_, ?_⟩
            · rw [List.chain'_cons']
              refine ⟨?_, hchain⟩
              intro y hy
              have hymem : y ∈ pops evs2 := List.mem_of_mem_head? hy
              have := (hbounds y hymem).1
              omega
            · intro e he
              rcases List.mem_cons.mp he with he | he
              · subst he
                constructor
                · omega
                · rw [hee]
                  exact htF
              · obtain ⟨h1e, h2e⟩ := hbounds e he
                exact ⟨le_trans ht1 h1e, h2e⟩

theorem run_append {V : Type} [DecidableEq V] :
    ∀ (l1 l2 : List (Op V)) (h hF : RadixHeap V) (evs : List (Ev V)),
      run h (l1 ++ l2) = .ok (hF, evs) →
      ∃ h1 evs1 evs2, run h l1 = .ok (h1, evs1) ∧ run h1 l2 = .ok (hF, evs2)
        ∧ evs = evs1 ++ evs2 := by
  intro l1
  induction l1 with
  | nil =>
    intro l2 h hF evs hr
    exact ⟨h, [], evs, rfl, hr, rfl⟩
  | cons op l1 ih =>
    intro l2 h hF evs hr
    simp only [List.cons_append, run] at hr
    split at hr
    next => cases hr
    next h1 ev heq =>
      split at hr
      next => cases hr
      next hF2 evs2 heq2 =>
        cases hr
        obtain ⟨hm, evs1, evs2x, ha, hb, hc⟩ := ih l2 h1 hF evs2 heq2
        refine ⟨hm, ev :: evs1, evs2x, ?_, hb, by rw [hc, List.cons_append]⟩
        simp only [run, heq, ha]

theorem reachable_inv {V : Type} [DecidableEq V] {h : RadixHeap V}
    (hr : Reachable h) : Inv h := by
  obtain ⟨ops, evs, hwf, hrun⟩ := hr
  exact (run_inv ops (RadixHeap.new V) h evs (inv_new V) hwf hrun).1

theorem push_ok_iff {V : Type} [DecidableEq V] (h : RadixHeap V) (k : Nat) (v : V)
    (hlen : h.buckets.length = 33) :
    (∃ h2, RadixHeap.push h k v = .ok (.ok h2)) ↔ h.toplast ≤ k := by
  constructor
  · rintro ⟨h2, hp⟩
    by_contra hgt
    rw [Nat.not_le] at hgt
    unfold RadixHeap.push at hp
    rw [if_pos hgt] at hp
    simp at hp
  · intro hle
    have hblt : bucketFor k h.toplast < h.buckets.length := by
      have := bucketFor_le_32 k h.toplast
      omega
    refine ⟨{ h with
        buckets := h.buckets.set (bucketFor k h.toplast)
          ((h.buckets.get ⟨bucketFor k h.toplast, hblt⟩).push k v),
        length := h.length + 1 }, ?_⟩
    unfold RadixHeap.push
    rw [if_neg (Nat.not_lt.mpr hle)]
    simp only [List.getElem?_eq_getElem hblt, List.get_eq_getElem]

theorem stored_key_lower_bound {V : Type} {h : RadixHeap V} (hinv : Inv h) {p : Nat}
    (hp : p < h.buckets.length) (hscan : firstNonEmptyIdx h.buckets = some p)
    {m : Nat × V} (hm : m ∈ (h.buckets.get ⟨p, hp⟩).items)
    (hmin : ∀ y ∈ (h.buckets.get ⟨p, hp⟩).items, m.1 ≤ y.1) :
    ∀ b ∈ h.buckets, ∀ x ∈ b.items, m.1 ≤ x.1 := by
  obtain ⟨hlen, htl, hbuck⟩ := hinv
  obtain ⟨hplt, hpne, hbefore⟩ := firstNonEmptyIdx_spec h.buckets p hscan
  obtain ⟨hm32, hmt, hmbf⟩ := (hbuck p hp).2.1 m hm
  have hpidx : (h.buckets.get ⟨p, hp⟩).index = p := (hbuck p hp).1
  intro b hb x hx
  obtain ⟨j, hj, hgetj⟩ := List.mem_iff_getElem.mp hb
  have hbj : h.buckets.get ⟨j, hj⟩ = b := by
    rw [List.get_eq_getElem, hgetj]
  rcases Nat.lt_trichotomy j p with hjp | hjp | hjp
  · have hjnil : b.items = [] := by
      rw [← hbj]
      exact hbefore j hj hjp
    rw [hjnil] at hx
    cases hx
  · subst hjp
    have hbeq : b = h.buckets.get ⟨j, hp⟩ := hbj.symm
    rw [hbeq] at hx
    exact hmin x hx
  · have hjidx : b.index = j := by
      rw [← hbj]
      exact (hbuck j hj).1
    obtain ⟨hx32, hxt, hxbf⟩ := (hbuck j hj).2.1 x (hbj ▸ hx)
    rw [hbj] at hxbf
    have hbfm : bitLen (m.1 ^^^ h.toplast) = p := by
      rw [← bucketFor_eq_bitLen hm32 htl, hmbf, hpidx]
    have hbfx : bitLen (x.1 ^^^ h.toplast) = j := by
      rw [← bucketFor_eq_bitLen hx32 htl, hxbf, hjidx]
    have hltp : bitLen (m.1 ^^^ h.toplast) < bitLen (x.1 ^^^ h.toplast) := by omega
    exact le_of_lt (key_lt_of_bitLen_lt htl hm32 hx32 hxt hltp)

/-! ### The claims -/

/-- C1 (code_bug): after two successful inserts of the pair `(5, 0)` and one
successful extraction that triggered redistribution, the heap reports
`length() = 2` although only one entry remains — the count is not `N - M = 1`,
because redistribution re-inserts the drained entries through the normal
`push` path, double-counting them. -/
theorem count_conservation_code_bug :
    (run (RadixHeap.new Nat) [Op.push 5 0, Op.push 5 0, Op.pop]).toOption.map
      (fun pr => (pr.1.length, countPushOk pr.2, (pops pr.2).length))
      = some (2, 2, 1)
    ∧ (2 : Nat) ≠ 2 - 1 :=
  ⟨rfl, by decide⟩

/-- C2 (code_bug): inserting `(4, 10)` and `(5, 11)` (same distance class)
and then extracting panics inside `Bucket::pop` (`position(..).unwrap()` on
`None`), so extracting until empty cannot return the inserted multiset. -/
theorem multiset_roundtrip_code_bug :
    run (RadixHeap.new Nat) [Op.push 4 10, Op.push 5 11, Op.pop]
      = .error .unwrapNone := rfl

/-- C3 (code_bug): the public sequence `push(8, 0); push(9, 1); pop()`
reaches the `position(..).unwrap()` abort inside `Bucket::pop`: during
redistribution the bucket's cached `top` is the entry that was already
removed, so no item matches it. -/
theorem no_panic_code_bug :
    run (RadixHeap.new Nat) [Op.push 8 0, Op.push 9 1, Op.pop]
      = .error .unwrapNone := rfl

/-- C4 (counterexample): after pushing `(0, 10)` then `(0, 20)` into a fresh
heap both land in bucket 0, and the cached minimum is the LATER entry
`(0, 20)`, not the first-inserted minimal entry `(0, 10)` — bucket 0
replaces its cached minimum unconditionally on every push. -/
theorem bucket_top_tie_break_cex :
    (run (RadixHeap.new Nat) [Op.push 0 10, Op.push 0 20]).toOption.map
      (fun pr => pr.1.buckets.head?.map fun b => (b.top, b.items))
      = some (some (some (0, 20), [(0, 10), (0, 20)]))
    ∧ ((0, 20) : Nat × Nat) ≠ (0, 10) :=
  ⟨rfl, by decide⟩

/-- C4 (amended): for a bucket of positive index, push never displaces the
cached minimum by an equal (or larger) key and preserves
`top = minByKey items`; for the index-0 bucket, push unconditionally
replaces the cached minimum with the new entry; and `Bucket::pop` returns
the cached minimum while recomputing the new cached minimum over the items
as they were BEFORE the removal (not over the remaining items). -/
theorem bucket_top_amended {V : Type} [DecidableEq V] :
    (∀ (b : Bucket V) (m : Nat × V) (k : Nat) (v : V), b.index ≠ 0 →
        b.top = some m → m.1 ≤ k → (b.push k v).top = some m)
    ∧ (∀ (b : Bucket V) (k : Nat) (v : V), b.index ≠ 0 →
        b.top = minByKey b.items →
        (b.push k v).top = minByKey ((b.push k v).items))
    ∧ (∀ (b : Bucket V) (k : Nat) (v : V), b.index = 0 →
        (b.push k v).top = some (k, v))
    ∧ (∀ (b b2 : Bucket V) (r : Option (Nat × V)), Bucket.pop b = .ok (r, b2) →
        r = b.top ∧ b2.top = minByKey b.items) := by
  refine ⟨?_, ?_, ?_, ?_⟩
  · intro b m k v hidx htop hle
    unfold Bucket.push
    simp only [if_neg hidx, htop]
    rw [if_neg (by omega)]
  · intro b k v hidx htop
    exact Bucket.push_top_min (k := k) (v := v) hidx htop
  · intro b k v hidx
    unfold Bucket.push
    simp only [if_pos hidx]
  · intro b b2 r hpop
    obtain ⟨h1, _, h3, _⟩ := Bucket.pop_inversion hpop
    exact ⟨h1, h3⟩

/-- C4 (witness): the amended statement evaluated on concrete buckets. -/
theorem bucket_top_amended_witness :
    (Bucket.push (⟨1, some (5, 0), [(5, 0)]⟩ : Bucket Nat) 5 1).top = some (5, 0)
    ∧ (Bucket.push (⟨2, some (4, 0), [(4, 0)]⟩ : Bucket Nat) 9 1).top
      = minByKey ((Bucket.push (⟨2, some (4, 0), [(4, 0)]⟩ : Bucket Nat) 9 1).items)
    ∧ (Bucket.push (⟨0, none, []⟩ : Bucket Nat) 3 7).top = some (3, 7)
    ∧ ((some (5, 0) : Option (Nat × Nat))
        = (⟨1, some (5, 0), [(5, 0)]⟩ : Bucket Nat).top
      ∧ (⟨1, some (5, 0), []⟩ : Bucket Nat).top
        = minByKey (⟨1, some (5, 0), [(5, 0)]⟩ : Bucket Nat).items) := by
  refine ⟨?_, ?_, ?_, ?_⟩
  · exact bucket_top_amended.1 _ (5, 0) 5 1 (by decide) rfl (by decide)
  · exact bucket_top_amended.2.1 _ 9 1 (by decide) rfl
  · exact bucket_top_amended.2.2.1 _ 3 7 rfl
  · exact bucket_top_amended.2.2.2 _ _ _ (by rfl)

/-- C5: over any panic-free run from a fresh heap, the keys returned by the
successful extractions are non-decreasing in call order, every stored key is
at least the final baseline, the baseline of any successfully-run prefix is
at most the final baseline (so no operation, `clear` included, ever lowers
it), and every extracted key is bounded by the final baseline. -/
theorem extraction_monotone {V : Type} [DecidableEq V] :
    ∀ (ops : List (Op V)) (hF : RadixHeap V) (evs : List (Ev V)),
      (∀ op ∈ ops, opWF op = true) →
      run (RadixHeap.new V) ops = .ok (hF, evs) →
      List.Chain' (fun a b : Nat × V => a.1 ≤ b.1) (pops evs)
      ∧ (∀ b ∈ hF.buckets, ∀ e ∈ b.items, hF.toplast ≤ e.1)
      ∧ (∀ l1 l2 (h1 : RadixHeap V) evs1, ops = l1 ++ l2 →
          run (RadixHeap.new V) l1 = .ok (h1, evs1) → h1.toplast ≤ hF.toplast)
      ∧ (∀ e ∈ pops evs, e.1 ≤ hF.toplast) := by
  intro ops hF evs hwf hrun
  obtain ⟨hinvF, _, hchain, hbounds⟩ :=
    run_inv ops (RadixHeap.new V) hF evs (inv_new V) hwf hrun
  refine ⟨hchain, ?_, ?_, fun e he => (hbounds e he).2⟩
  · intro b hb e he
    exact ((inv_buckets_mem hinvF hb).1 e he).2.1
  · intro l1 l2 h1 evs1 hsplit hrun1
    subst hsplit
    obtain ⟨h1x, evs1x, evs2x, ha, hb, _⟩ := run_append l1 l2 _ hF evs hrun
    have hsame : h1x = h1 := by
      rw [hrun1] at ha
      injection ha with ha2
      injection ha2 with ha3 _
      exact ha3.symm
    subst hsame
    have hwf1 : ∀ op ∈ l1, opWF op = true := fun o ho =>
      hwf o (List.mem_append_left _ ho)
    have hwf2 : ∀ op ∈ l2, opWF op = true := fun o ho =>
      hwf o (List.mem_append_right _ ho)
    have hinv1 := (run_inv l1 (RadixHeap.new V) h1x evs1x (inv_new V) hwf1 ha).1
    exact (run_inv l2 h1x hF evs2x hinv1 hwf2 hb).2.1

/-- C5 (witness): the monotonicity conclusion on the concrete run
`push (4,0); pop; push (9,1); pop`, whose extractions return keys 4 then 9. -/
theorem extraction_monotone_witness :
    List.Chain' (fun a b : Nat × Nat => a.1 ≤ b.1)
      (pops [Ev.pushOk, Ev.popRes (some (4, 0)), Ev.pushOk,
        Ev.popRes (some (9, 1))]) := by
  have hrun : run (RadixHeap.new Nat) [Op.push 4 0, Op.pop, Op.push 9 1, Op.pop]
      = .ok (sampleHeap2, [Ev.pushOk, Ev.popRes (some (4, 0)), Ev.pushOk,
        Ev.popRes (some (9, 1))]) := by rfl
  exact (extraction_monotone [Op.push 4 0, Op.pop, Op.push 9 1, Op.pop]
    sampleHeap2 _ (by decide) hrun).1

/-- C6 (code_bug): a reachable state (after `push(6, 10); push(7, 11)`) where
`peek` reports `(6, 10)` but the immediately following `pop` panics
(`unwrap` on `None` inside `Bucket::pop`) instead of returning that pair. -/
theorem peek_pop_agreement_code_bug :
    (run (RadixHeap.new Nat) [Op.push 6 10, Op.push 7 11]).toOption.map
      (fun pr => (RadixHeap.peek pr.1, RadixHeap.pop pr.1))
      = some (some (6, 10), .error .unwrapNone) := rfl

/-- C7: on any heap with its 33 buckets, `push` succeeds exactly when the
key is at least `toplast`, and for a too-small key it returns
`Err("key too small")` while leaving the state untouched. -/
theorem push_guard {V : Type} [DecidableEq V] :
    ∀ (h : RadixHeap V) (k : Nat) (v : V), h.buckets.length = 33 →
      ((∃ h2, RadixHeap.push h k v = .ok (.ok h2)) ↔ h.toplast ≤ k)
      ∧ (k < h.toplast →
          RadixHeap.push h k v = .ok (.error .keyTooSmall)
          ∧ step h (.push k v) = .ok (h, .pushErr)) := by
  intro h k v hlen
  refine ⟨push_ok_iff h k v hlen, ?_⟩
  intro hlt
  have hp : RadixHeap.push h k v = .ok (.error .keyTooSmall) := by
    unfold RadixHeap.push
    rw [if_pos hlt]
  refine ⟨hp, ?_⟩
  simp only [step, hp]

/-- C7 (witness): pushing key 7 into a fresh heap (baseline 0) succeeds. -/
theorem push_guard_witness :
    ∃ h2, RadixHeap.push (RadixHeap.new Nat) 7 0 = .ok (.ok h2) := by
  exact (push_guard (RadixHeap.new Nat) 7 0 rfl).1.mpr (by decide)

/-- C8: in every reachable heap state an entry with key `k` sits in the
bucket of index `bucketFor k toplast` (which is 0 exactly when
`k = toplast`), and for keys of one distance class `b ≥ 1` relative to the
old baseline, re-inserting a remaining key relative to the extracted minimum
lands in a strictly smaller distance class. -/
theorem bucket_placement {V : Type} [DecidableEq V] :
    ∀ h : RadixHeap V, Reachable h →
      (∀ b ∈ h.buckets, ∀ e ∈ b.items,
        bucketFor e.1 h.toplast = b.index ∧ (b.index = 0 ↔ e.1 = h.toplast))
      ∧ ∀ t k kk : Nat, t < 2 ^ 32 → k < 2 ^ 32 → kk < 2 ^ 32 → t ≤ k →
          k ≤ kk → 1 ≤ bucketFor k t → bucketFor kk t = bucketFor k t →
          bucketFor kk k < bucketFor k t := by
  intro h hreach
  have hinv := reachable_inv hreach
  have htl := hinv.2.1
  constructor
  · intro b hb e he
    obtain ⟨he32, het, hebf⟩ := (inv_buckets_mem hinv hb).1 e he
    refine ⟨hebf, ?_⟩
    rw [← hebf]
    exact bucketFor_eq_zero_iff he32 htl
  · intro t k kk ht hk hkk _ _ hpos heq
    rw [bucketFor_eq_bitLen hkk ht, bucketFor_eq_bitLen hk ht] at heq
    rw [bucketFor_eq_bitLen hk ht] at hpos ⊢
    rw [bucketFor_eq_bitLen hkk hk]
    have := bitLen_xor_lt ht hkk hk heq (by omega)
    omega

/-- C8 (witness): entry `(3, 5)` of the concrete reachable heap built by
`push (3, 5); push (9, 7)` sits in bucket 2 as the bucket map dictates, and
a key of class 4 (key 12 relative to baseline 0) re-inserted relative to the
extracted minimum 8 of that class lands in a strictly smaller class. -/
theorem bucket_placement_witness :
    (bucketFor 3 sampleHeap.toplast = 2 ∧ ((2 : Nat) = 0 ↔ 3 = sampleHeap.toplast))
    ∧ bucketFor 12 8 < bucketFor 8 0 := by
  have hreach : Reachable sampleHeap :=
    ⟨[Op.push 3 5, Op.push 9 7], [Ev.pushOk, Ev.pushOk], by decide, rfl⟩
  constructor
  · exact (bucket_placement sampleHeap hreach).1
      ⟨2, some (3, 5), [(3, 5)]⟩ (by decide) (3, 5) (by decide)
  · exact (bucket_placement sampleHeap hreach).2 0 8 12 (by decide) (by decide)
      (by decide) (by decide) (by decide) (by decide) (by decide)

/-- C9: `clear` zeroes the count, makes the heap empty, empties every
bucket's items and cached minimum, leaves `toplast` unchanged, and a
subsequent push with a key at least that unchanged baseline succeeds. -/
theorem clear_semantics {V : Type} [DecidableEq V] :
    ∀ (h : RadixHeap V) (k : Nat) (v : V),
      (RadixHeap.clear h).length = 0
      ∧ (RadixHeap.clear h).empty = true
      ∧ (∀ b ∈ (RadixHeap.clear h).buckets, b.items = [] ∧ b.top = none)
      ∧ (RadixHeap.clear h).toplast = h.toplast
      ∧ (h.buckets.length = 33 → h.toplast ≤ k →
          ∃ h2, RadixHeap.push (RadixHeap.clear h) k v = .ok (.ok h2)) := by
  intro h k v
  refine ⟨rfl, rfl, ?_, rfl, ?_⟩
  · intro b hb
    obtain ⟨b0, _, rfl⟩ := List.mem_map.mp hb
    exact ⟨rfl, rfl⟩
  · intro hlen hle
    have hlen2 : (RadixHeap.clear h).buckets.length = 33 := by
      simp [RadixHeap.clear, hlen]
    exact (push_ok_iff (RadixHeap.clear h) k v hlen2).mpr hle

/-- C9 (witness): clearing a fresh heap and pushing key 3 afterwards. -/
theorem clear_semantics_witness :
    (RadixHeap.clear (RadixHeap.new Nat)).length = 0
    ∧ ∃ h2, RadixHeap.push (RadixHeap.clear (RadixHeap.new Nat)) 3 0
        = .ok (.ok h2) := by
  obtain ⟨h1, _, _, _, h5⟩ := clear_semantics (RadixHeap.new Nat) 3 0
  exact ⟨h1, h5 rfl (by decide)⟩

/-- C10: in every reachable non-empty heap state the first non-empty bucket
contains an entry of globally minimal key, and whatever `peek` returns has
globally minimal key. -/
theorem first_nonempty_bucket_min {V : Type} [DecidableEq V] :
    ∀ h : RadixHeap V, Reachable h →
      (∀ p (hp : p < h.buckets.length), firstNonEmptyIdx h.buckets = some p →
        ∃ e ∈ (h.buckets.get ⟨p, hp⟩).items,
          ∀ b ∈ h.buckets, ∀ x ∈ b.items, e.1 ≤ x.1)
      ∧ (∀ r, RadixHeap.peek h = some r →
          ∀ b ∈ h.buckets, ∀ x ∈ b.items, r.1 ≤ x.1) := by
  intro h hreach
  have hinv := reachable_inv hreach
  constructor
  · intro p hp hscan
    obtain ⟨hplt, hpne, _⟩ := firstNonEmptyIdx_spec h.buckets p hscan
    cases hmk : minByKey (h.buckets.get ⟨p, hp⟩).items with
    | none => exact absurd (minByKey_eq_none_iff.mp hmk) hpne
    | some m =>
      obtain ⟨hmmem, hmmin⟩ := minByKey_spec hmk
      exact ⟨m, hmmem, stored_key_lower_bound hinv hp hscan hmmem hmmin⟩
  · intro r hpeek
    unfold RadixHeap.peek at hpeek
    split at hpeek
    next => cases hpeek
    next =>
      split at hpeek
      next p hscan =>
        split at hpeek
        next b heqb =>
          obtain ⟨hplt2, hbget⟩ := getElem?_inv heqb
          obtain ⟨hplt, hpne, _⟩ := firstNonEmptyIdx_spec h.buckets p hscan
          have hbidx : b.index = p := by
            rw [← hbget]
            exact (hinv.2.2 p hplt2).1
          have hbinv : BucketInv h.toplast b := by
            rw [← hbget]
            exact (hinv.2.2 p hplt2).2
          have hitems : b.items ≠ [] := by
            rw [← hbget]
            exact hpne
          by_cases hb0 : b.index = 0
          · obtain ⟨v0, htop0⟩ := hbinv.2.2 hb0 hitems
            rw [htop0] at hpeek
            injection hpeek with hpeek2
            subst hpeek2
            intro bx hbx x hx
            exact ((inv_buckets_mem hinv hbx).1 x hx).2.1
          · have htopmin : b.top = minByKey b.items := hbinv.2.1 hb0
            rw [htopmin] at hpeek
            obtain ⟨hmmem, hmmin⟩ := minByKey_spec hpeek
            have hmmem2 : r ∈ (h.buckets.get ⟨p, hplt2⟩).items := by
              rw [hbget]
              exact hmmem
            have hmmin2 : ∀ y ∈ (h.buckets.get ⟨p, hplt2⟩).items, r.1 ≤ y.1 := by
              rw [hbget]
              exact hmmin
            exact stored_key_lower_bound hinv hplt2 hscan hmmem2 hmmin2
        next heqb => cases hpeek
      next => cases hpeek

/-- C10 (witness): the first non-empty bucket (index 2) of the concrete
reachable heap built by `push (3, 5); push (9, 7)` holds the global minimum. -/
theorem first_nonempty_bucket_min_witness :
    ∃ e ∈ (sampleHeap.buckets.get ⟨2, by decide⟩).items,
      ∀ b ∈ sampleHeap.buckets, ∀ x ∈ b.items, e.1 ≤ x.1 := by
  have hreach : Reachable sampleHeap :=
    ⟨[Op.push 3 5, Op.push 9 7], [Ev.pushOk, Ev.pushOk], by decide, rfl⟩
  exact (first_nonempty_bucket_min sampleHeap hreach).1 2 (by decide) (by rfl)

end Radixheap
